import Mathlib

/-!
Verification development for the launchdock quick-launch application finder.

The embedding models the Rust source shallowly:
- strings are `List Char` (Rust `String`/`&str`); matched positions are
  character indices, as in the source, which iterates `chars()` of the
  lower-cased name, and `String::len` byte counts are modelled exactly by
  `utf8Len` (`to_ascii_lowercase` only touches single-byte ASCII, so it
  commutes with the char-list view);
- `usize` values are `Nat`; the `f32` scores of the fuzzy matcher are modelled
  as exact rationals `ℚ` (every score term is a division by a value ≥ 1, a
  comparison, or a bounded product, so the rational idealization tracks the
  algorithmic structure);
- filesystem and process effects are passed in as explicit oracles.
-/

/-- `App` mirrors `src/model.rs::App` (name, executable path, optional
description, optional icon path). -/
structure App where
  name : List Char
  path : List Char
  description : Option (List Char) := none
  icon : Option (List Char) := none
deriving DecidableEq, Repr

/-- Rust `char::to_ascii_lowercase`: map `'A'..='Z'` to lowercase, leave every
other character unchanged. -/
def toAsciiLowercase (c : Char) : Char :=
  if 'A' ≤ c ∧ c ≤ 'Z' then Char.ofNat (c.toNat + 32) else c

/-- The inner `while` loop of `AppState::filtered_apps` (`src/view.rs:97-99`):
scan the suffix of the name for the first occurrence of `c`, carrying the
absolute index `i` of the head of the suffix. -/
def findFromSuffix (c : Char) : List Char → Nat → Option Nat
  | [], _ => none
  | a :: rest, i => if a = c then some i else findFromSuffix c rest (i + 1)

/-- Advance the cursor: find the first index `j ≥ i` with `l[j] = c`
(the loop `while app_idx < app_chars.len() && app_chars[app_idx] != query_char`
followed by the bounds check in `src/view.rs:96-104`). -/
def findFrom (l : List Char) (i : Nat) (c : Char) : Option Nat :=
  findFromSuffix c (l.drop i) i

/-- The per-query-character greedy cursor loop of `filtered_apps`
(`src/view.rs:91-108`): take the first eligible position for each query
character, left to right, and collect the matched positions; `none` when some
query character cannot be found (`found_all = false`). -/
def subseqPositionsFrom (appChars : List Char) : List Char → Nat → Option (List Nat)
  | [], _ => some []
  | c :: qs, i =>
    match findFrom appChars i c with
    | none => none
    | some j =>
      match subseqPositionsFrom appChars qs (j + 1) with
      | none => none
      | some ps => some (j :: ps)

/-- The complete subsequence test, starting the cursor at index 0. -/
def subseqPositions (appChars queryChars : List Char) : Option (List Nat) :=
  subseqPositionsFrom appChars queryChars 0

/-- The `positions.windows(2)` loop of `src/view.rs:127-132`: count the pairs
of consecutive matched positions at distance exactly 1. -/
def consecCount : List Nat → Nat
  | p1 :: rest@(p2 :: _) => (if p2 - p1 = 1 then 1 else 0) + consecCount rest
  | _ => 0

/-- Rust `String::len`: the UTF-8 encoded byte length of a string
(`Char.utf8Size` is the number of bytes UTF-8 uses for one scalar value). -/
def utf8Len (s : List Char) : Nat := s.foldl (fun n c => n + c.utf8Size) 0

/-- The score computation of `src/view.rs:114-137` for a matching candidate:
base (brevity) term, proximity (compactness) term guarded by
`positions.len() > 1`, consecutive-pair bonus, early-match bonus.
`nameLen` is `app.name.len()`, the UTF-8 byte length; the unguarded `positions[0]` / `last()` /
`first()` accesses of the source are modelled with 0-defaulted accessors
(never reached with an empty `positions` on any path of `filtered_apps`). -/
def scoreApp (nameLen : Nat) (positions : List Nat) : ℚ :=
  let base : ℚ := 1000 / max (nameLen : ℚ) 1
  let proximity : ℚ :=
    if positions.length > 1 then
      1000 / max ((positions.getLastD 0 - positions.headD 0 + 1 : Nat) : ℚ) 1
    else 0
  let consecutive : ℚ := (consecCount positions : ℚ) * 200
  let early : ℚ := 50 / ((positions.headD 0 : ℚ) + 1)
  base + proximity + consecutive + early

/-- The `matches` vector built by the `for app in &self.model.all_apps` loop of
`filtered_apps` (`src/view.rs:84-140`): each catalog record passing the greedy
subsequence test, paired with its score, in catalog order. `queryChars` is the
already lower-cased query. -/
def scoredMatches (allApps : List App) (queryChars : List Char) : List (App × ℚ) :=
  allApps.filterMap fun app =>
    match subseqPositions (app.name.map toAsciiLowercase) queryChars with
    | none => none
    | some ps => some (app, scoreApp (utf8Len app.name) ps)

/-- `AppState::filtered_apps` (`src/view.rs:76-146`): empty query short-circuits
to the empty list; otherwise score the matching candidates and stable-sort by
descending score (`matches.sort_by(|a, b| b.1.partial_cmp(&a.1).unwrap())`,
Rust `sort_by` being a stable sort). -/
def filteredApps (allApps : List App) (searchQuery : List Char) : List App :=
  if searchQuery = [] then []
  else
    ((scoredMatches allApps (searchQuery.map toAsciiLowercase)).mergeSort
        fun x y => decide (y.2 ≤ x.2)).map Prod.fst

/-- The score `filtered_apps` associates to a record for a given raw query
(0 for non-matching records, which never reach the sort). -/
def appScore (searchQuery : List Char) (a : App) : ℚ :=
  match subseqPositions (a.name.map toAsciiLowercase) (searchQuery.map toAsciiLowercase) with
  | some ps => scoreApp (utf8Len a.name) ps
  | none => 0

/-- Whether a record passes the greedy subsequence test for a raw query. -/
def isMatch (searchQuery : List Char) (a : App) : Bool :=
  (subseqPositions (a.name.map toAsciiLowercase) (searchQuery.map toAsciiLowercase)).isSome

theorem findFromSuffix_eq_none {c : Char} :
    ∀ (rest : List Char) (i : Nat), findFromSuffix c rest i = none ↔ c ∉ rest
  | [], i => by simp [findFromSuffix]
  | a :: rest, i => by
    simp only [findFromSuffix, List.mem_cons]
    by_cases h : a = c
    · simp [h]
    · simp only [if_neg h]
      rw [findFromSuffix_eq_none rest (i + 1)]
      constructor
      · intro hn hmem
        rcases hmem with h1 | h2
        · exact h h1.symm
        · exact hn h2
      · intro hn
        exact fun h2 => hn (Or.inr h2)

theorem findFromSuffix_eq_some {c : Char} :
    ∀ (rest : List Char) (i j : Nat), findFromSuffix c rest i = some j →
      ∃ pre post, rest = pre ++ c :: post ∧ c ∉ pre ∧ j = i + pre.length
  | [], i, j => by simp [findFromSuffix]
  | a :: rest, i, j => by
    simp only [findFromSuffix]
    by_cases h : a = c
    · simp only [if_pos h]
      intro hj
      refine ⟨[], rest, by simp [h], by simp, by simpa using hj.symm⟩
    · simp only [if_neg h]
      intro hj
      obtain ⟨pre, post, hr, hpre, hjv⟩ := findFromSuffix_eq_some rest (i + 1) j hj
      refine ⟨a :: pre, post, by simp [hr], ?_, by simp [hjv]; omega⟩
      simp only [List.mem_cons]
      intro hc
      rcases hc with h1 | h2
      · exact h h1.symm
      · exact hpre h2

theorem findFrom_eq_none {l : List Char} {i : Nat} {c : Char} :
    findFrom l i c = none ↔ c ∉ l.drop i := by
  rw [findFrom, findFromSuffix_eq_none]

theorem findFrom_some_decomp {l : List Char} {i j : Nat} {c : Char}
    (h : findFrom l i c = some j) :
    ∃ pre, l.drop i = pre ++ c :: l.drop (j + 1) ∧ c ∉ pre := by
  obtain ⟨pre, post, hr, hpre, hjv⟩ := findFromSuffix_eq_some (l.drop i) i j h
  refine ⟨pre, ?_, hpre⟩
  have hpost : post = l.drop (j + 1) := by
    have : l.drop (j + 1) = (l.drop i).drop (pre.length + 1) := by
      rw [List.drop_drop]
      congr 1
      omega
    rw [this, hr]
    have : pre ++ c :: post = (pre ++ [c]) ++ post := by simp
    rw [this]
    have hlen : (pre ++ [c]).length = pre.length + 1 := by simp
    rw [← hlen, List.drop_left]
  rw [hr, hpost]

theorem cons_sublist_of_ne {c a : Char} {qs rest : List Char} (hne : c ≠ a) :
    (c :: qs).Sublist (a :: rest) ↔ (c :: qs).Sublist rest := by
  constructor
  · intro h
    cases h with
    | cons _ h => exact h
    | cons₂ _ h => exact absurd rfl hne
  · exact fun h => h.cons a

theorem sublist_tail_of_first_occ {c : Char} {qs : List Char} :
    ∀ (pre : List Char), c ∉ pre → ∀ (rest : List Char),
      (c :: qs).Sublist (pre ++ c :: rest) → qs.Sublist rest
  | [], _, rest => by
    intro h
    simp only [List.nil_append] at h
    cases h with
    | cons _ h => exact (List.sublist_cons_self c qs).trans h
    | cons₂ _ h => exact h
  | p :: pre, hnotin, rest => by
    intro h
    have hne : c ≠ p := fun he => hnotin (by simp [he])
    rw [List.cons_append, cons_sublist_of_ne hne] at h
    exact sublist_tail_of_first_occ pre (fun hm => hnotin (by simp [hm])) rest h

theorem subseqPositionsFrom_isSome (l : List Char) :
    ∀ (q : List Char) (i : Nat),
      (subseqPositionsFrom l q i).isSome = true ↔ q.Sublist (l.drop i)
  | [], i => by simp [subseqPositionsFrom, List.nil_sublist]
  | c :: qs, i => by
    cases hf : findFrom l i c with
    | none =>
      have hnotin : c ∉ l.drop i := findFrom_eq_none.mp hf
      simp only [subseqPositionsFrom, hf, Option.isSome_none, Bool.false_eq_true, false_iff]
      intro hsub
      exact hnotin (hsub.subset (by simp))
    | some j =>
      obtain ⟨pre, hdecomp, hpre⟩ := findFrom_some_decomp hf
      have hrec := subseqPositionsFrom_isSome l qs (j + 1)
      simp only [subseqPositionsFrom, hf]
      cases hr : subseqPositionsFrom l qs (j + 1) with
      | none =>
        simp only [hr, Option.isSome_none, Bool.false_eq_true, false_iff]
        rw [hdecomp]
        intro hsub
        have hq : qs.Sublist (l.drop (j + 1)) := sublist_tail_of_first_occ pre hpre _ hsub
        have := hrec.mpr hq
        rw [hr] at this
        simp at this
      | some ps =>
        simp only [hr, Option.isSome_some, true_iff]
        rw [hdecomp]
        have hq : qs.Sublist (l.drop (j + 1)) := by
          have := hrec.mp (by rw [hr]; rfl)
          exact this
        exact (hq.cons_cons c).trans (List.sublist_append_right pre _)

theorem subseqPositions_isSome_iff {name q : List Char} :
    (subseqPositions name q).isSome = true ↔ q.Sublist name := by
  rw [subseqPositions, subseqPositionsFrom_isSome, List.drop_zero]

theorem subseqPositionsFrom_length {l : List Char} :
    ∀ (q : List Char) (i : Nat) (ps : List Nat),
      subseqPositionsFrom l q i = some ps → ps.length = q.length
  | [], i, ps => by
    simp only [subseqPositionsFrom, Option.some.injEq]
    intro h
    simp [← h]
  | c :: qs, i, ps => by
    cases hf : findFrom l i c with
    | none => simp [subseqPositionsFrom, hf]
    | some j =>
      cases hr : subseqPositionsFrom l qs (j + 1) with
      | none => simp [subseqPositionsFrom, hf, hr]
      | some ps0 =>
        simp only [subseqPositionsFrom, hf, hr, Option.some.injEq]
        intro h
        have := subseqPositionsFrom_length qs (j + 1) ps0 hr
        simp [← h, this]

theorem mem_scoredMatches {allApps : List App} {qc : List Char} {x : App × ℚ} :
    x ∈ scoredMatches allApps qc ↔
      x.1 ∈ allApps ∧ ∃ ps, subseqPositions (x.1.name.map toAsciiLowercase) qc = some ps ∧
        x.2 = scoreApp (utf8Len x.1.name) ps := by
  obtain ⟨a0, s0⟩ := x
  rw [scoredMatches, List.mem_filterMap]
  constructor
  · rintro ⟨a, ha, hfa⟩
    cases hp : subseqPositions (a.name.map toAsciiLowercase) qc with
    | none => rw [hp] at hfa; simp at hfa
    | some ps =>
      rw [hp] at hfa
      simp only [Option.some.injEq, Prod.mk.injEq] at hfa
      obtain ⟨hfa1, hfa2⟩ := hfa
      subst hfa1
      exact ⟨ha, ps, hp, hfa2.symm⟩
  · rintro ⟨hmem, ps, hps, hscore⟩
    refine ⟨a0, hmem, ?_⟩
    rw [hps]
    simp only [Option.some.injEq, Prod.mk.injEq]
    exact ⟨trivial, hscore.symm⟩

/-- C1: for every catalog and non-empty query, the matcher returns exactly the
catalog records whose lower-cased name contains the lower-cased query as an
ordered (not necessarily contiguous) subsequence, the test performed by the
greedy left-to-right first-eligible-position cursor (`subseqPositions`). -/
theorem filteredApps_mem_iff_subsequence (allApps : List App) (q : List Char) (a : App)
    (hq : q ≠ []) :
    a ∈ filteredApps allApps q ↔
      a ∈ allApps ∧ (q.map toAsciiLowercase).Sublist (a.name.map toAsciiLowercase) := by
  rw [filteredApps, if_neg hq, List.mem_map]
  constructor
  · rintro ⟨x, hx, hfst⟩
    rw [List.mem_mergeSort, mem_scoredMatches] at hx
    obtain ⟨hmem, ps, hps, -⟩ := hx
    subst hfst
    exact ⟨hmem, subseqPositions_isSome_iff.mp (by rw [hps]; rfl)⟩
  · rintro ⟨hmem, hsub⟩
    have hsome := subseqPositions_isSome_iff.mpr hsub
    cases hps : subseqPositions (a.name.map toAsciiLowercase) (q.map toAsciiLowercase) with
    | none => rw [hps] at hsome; simp at hsome
    | some ps =>
      refine ⟨(a, scoreApp (utf8Len a.name) ps), ?_, rfl⟩
      rw [List.mem_mergeSort, mem_scoredMatches]
      exact ⟨hmem, ps, hps, rfl⟩

/-- C2: every score the matcher computes is the sum of the four documented
terms with constants 1000, 1000, 200, 50; the compactness term is present
exactly when the query has at least two characters. -/
theorem scoredMatches_score_formula (allApps : List App) (q : List Char) (a : App) (s : ℚ)
    (h : (a, s) ∈ scoredMatches allApps (q.map toAsciiLowercase)) :
    ∃ ps, subseqPositions (a.name.map toAsciiLowercase) (q.map toAsciiLowercase) = some ps ∧
      s = 1000 / max (utf8Len a.name : ℚ) 1
        + (if 2 ≤ q.length then
             1000 / max ((ps.getLastD 0 - ps.headD 0 + 1 : Nat) : ℚ) 1 else 0)
        + 200 * (consecCount ps : ℚ)
        + 50 / ((ps.headD 0 : ℚ) + 1) := by
  rw [mem_scoredMatches] at h
  obtain ⟨-, ps, hps, hs⟩ := h
  refine ⟨ps, hps, ?_⟩
  have hlen : ps.length = q.length := by
    have := subseqPositionsFrom_length (q.map toAsciiLowercase) 0 ps hps
    simpa using this
  have hcond : (if ps.length > 1 then
        (1000 : ℚ) / max ((ps.getLastD 0 - ps.headD 0 + 1 : Nat) : ℚ) 1 else 0)
      = (if 2 ≤ q.length then
        (1000 : ℚ) / max ((ps.getLastD 0 - ps.headD 0 + 1 : Nat) : ℚ) 1 else 0) := by
    refine if_congr ?_ rfl rfl
    omega
  rw [show s = scoreApp (utf8Len a.name) ps from hs,
      show scoreApp (utf8Len a.name) ps = 1000 / max (utf8Len a.name : ℚ) 1
        + (if ps.length > 1 then
             (1000 : ℚ) / max ((ps.getLastD 0 - ps.headD 0 + 1 : Nat) : ℚ) 1 else 0)
        + (consecCount ps : ℚ) * 200 + 50 / ((ps.headD 0 : ℚ) + 1) from rfl,
      hcond]
  ring

/-- C3: the empty query returns the empty result for every catalog, not the
full catalog. -/
theorem filteredApps_empty_query (allApps : List App) : filteredApps allApps [] = [] := rfl

theorem scoreLe_trans (x y z : App × ℚ) (h1 : decide (y.2 ≤ x.2) = true)
    (h2 : decide (z.2 ≤ y.2) = true) : decide (z.2 ≤ x.2) = true := by
  simp only [decide_eq_true_eq] at h1 h2 ⊢
  exact le_trans h2 h1

theorem scoreLe_total (x y : App × ℚ) :
    (decide (y.2 ≤ x.2) || decide (x.2 ≤ y.2)) = true := by
  simp only [Bool.or_eq_true, decide_eq_true_eq]
  exact le_total y.2 x.2

theorem map_fst_scoredMatches (allApps : List App) (qc : List Char) :
    (scoredMatches allApps qc).map Prod.fst
      = allApps.filter fun a => (subseqPositions (a.name.map toAsciiLowercase) qc).isSome := by
  induction allApps with
  | nil => rfl
  | cons a rest ih =>
    rw [scoredMatches, List.filterMap_cons]
    cases hp : subseqPositions (a.name.map toAsciiLowercase) qc with
    | none =>
      rw [List.filter_cons]
      simp only [hp, Option.isSome_none]
      exact ih
    | some ps =>
      rw [List.filter_cons]
      simp only [hp, Option.isSome_some, List.map_cons]
      rw [if_pos trivial]
      exact congrArg (a :: ·) ih

theorem snd_eq_appScore_of_mem {allApps : List App} {q : List Char} {x : App × ℚ}
    (hx : x ∈ scoredMatches allApps (q.map toAsciiLowercase)) : x.2 = appScore q x.1 := by
  rw [mem_scoredMatches] at hx
  obtain ⟨-, ps, hps, hs⟩ := hx
  rw [appScore, hps, hs]

/-- C4: the matcher output is ordered by descending total score, and records
with equal scores keep their original catalog order (stable sort, no further
tie-break). -/
theorem filteredApps_sorted_stable (allApps : List App) (q : List Char) :
    (filteredApps allApps q).Pairwise (fun a b => appScore q b ≤ appScore q a) ∧
    (q ≠ [] → ∀ s : ℚ,
      (filteredApps allApps q).filter (fun a => decide (appScore q a = s))
        = (allApps.filter (isMatch q)).filter fun a => decide (appScore q a = s)) := by
  by_cases hq : q = []
  · subst hq
    constructor
    · rw [filteredApps, if_pos rfl]
      exact List.Pairwise.nil
    · intro h
      exact absurd rfl h
  · have hunfold : filteredApps allApps q
        = ((scoredMatches allApps (q.map toAsciiLowercase)).mergeSort
            fun x y => decide (y.2 ≤ x.2)).map Prod.fst := by
      rw [filteredApps, if_neg hq]
    have hmemeq : ∀ x ∈ (scoredMatches allApps (q.map toAsciiLowercase)).mergeSort
        (fun x y => decide (y.2 ≤ x.2)), x.2 = appScore q x.1 := by
      intro x hx
      rw [List.mem_mergeSort] at hx
      exact snd_eq_appScore_of_mem hx
    constructor
    · rw [hunfold, List.pairwise_map]
      have hsorted := List.sorted_mergeSort
        scoreLe_trans scoreLe_total (scoredMatches allApps (q.map toAsciiLowercase))
      refine hsorted.imp_of_mem ?_
      intro x y hxm hym hxy
      rw [← hmemeq x hxm, ← hmemeq y hym]
      exact of_decide_eq_true hxy
    · intro _ s
      rw [hunfold]
      have hcomm : ∀ (l : List (App × ℚ)),
          (l.map Prod.fst).filter (fun a => decide (appScore q a = s))
            = (l.filter fun x => decide (appScore q x.1 = s)).map Prod.fst := by
        intro l
        rw [List.filter_map]
        rfl
      rw [hcomm]
      have hswitch : ((scoredMatches allApps (q.map toAsciiLowercase)).mergeSort
            (fun x y => decide (y.2 ≤ x.2))).filter (fun x => decide (appScore q x.1 = s))
          = ((scoredMatches allApps (q.map toAsciiLowercase)).mergeSort
            (fun x y => decide (y.2 ≤ x.2))).filter fun x => decide (x.2 = s) :=
        List.filter_congr fun x hx => by rw [hmemeq x hx]
      have hswitch2 : (scoredMatches allApps (q.map toAsciiLowercase)).filter
            (fun x => decide (appScore q x.1 = s))
          = (scoredMatches allApps (q.map toAsciiLowercase)).filter fun x => decide (x.2 = s) :=
        List.filter_congr fun x hx => by rw [snd_eq_appScore_of_mem hx]
      have hstable : ((scoredMatches allApps (q.map toAsciiLowercase)).mergeSort
            (fun x y => decide (y.2 ≤ x.2))).filter (fun x => decide (x.2 = s))
          = (scoredMatches allApps (q.map toAsciiLowercase)).filter fun x => decide (x.2 = s) := by
        have hpw : ((scoredMatches allApps (q.map toAsciiLowercase)).filter
            (fun x => decide (x.2 = s))).Pairwise
              fun x y => (fun x y : App × ℚ => decide (y.2 ≤ x.2)) x y = true := by
          refine List.pairwise_of_forall_mem_list ?_
          intro x hx y hy
          rw [List.mem_filter] at hx hy
          have hxs : x.2 = s := of_decide_eq_true hx.2
          have hys : y.2 = s := of_decide_eq_true hy.2
          simp only [decide_eq_true_eq]
          rw [hxs, hys]
        have hsub : ((scoredMatches allApps (q.map toAsciiLowercase)).filter
              (fun x => decide (x.2 = s))).Sublist
            ((scoredMatches allApps (q.map toAsciiLowercase)).mergeSort
              fun x y => decide (y.2 ≤ x.2)) :=
          List.sublist_mergeSort scoreLe_trans scoreLe_total hpw (List.filter_sublist _)
        have hsub2 := hsub.filter fun x : App × ℚ => decide (x.2 = s)
        rw [List.filter_filter] at hsub2
        rw [List.filter_congr fun x _ => Bool.and_self _] at hsub2
        have hlen : (((scoredMatches allApps (q.map toAsciiLowercase)).mergeSort
              (fun x y => decide (y.2 ≤ x.2))).filter fun x => decide (x.2 = s)).length
            = ((scoredMatches allApps (q.map toAsciiLowercase)).filter
              fun x => decide (x.2 = s)).length :=
          (List.Perm.filter _ (List.mergeSort_perm _ _)).length_eq
        exact (hsub2.eq_of_length hlen.symm).symm
      rw [hswitch, hstable, ← hswitch2, ← hcomm, map_fst_scoredMatches]
      rfl

/-- The catalog of `tests::test_basic_matching` (`src/view.rs:505-521`). -/
def firefoxApp : App := { name := "firefox".toList, path := "/usr/bin/firefox".toList }

def photogravureApp : App :=
  { name := "photogravure".toList, path := "/usr/bin/photogravure".toList }

def gimpApp : App := { name := "gimp".toList, path := "/usr/bin/gimp".toList }

def gnomeVideoApp : App :=
  { name := "gnome-video".toList, path := "/usr/bin/gnome-video".toList }

def demoApps : List App := [firefoxApp, photogravureApp, gimpApp, gnomeVideoApp]

/-- C5: on the four-record demo catalog, query "gv" returns exactly
photogravure then gnome-video. -/
theorem filteredApps_demo_gv :
    filteredApps demoApps ("gv".toList) = [photogravureApp, gnomeVideoApp] := by
  have hm : scoredMatches demoApps ("gv".toList.map toAsciiLowercase) =
      [(photogravureApp, scoreApp 12 [5, 8]), (gnomeVideoApp, scoreApp 11 [0, 6])] := rfl
  have hle : scoreApp 11 [0, 6] ≤ scoreApp 12 [5, 8] := by
    simp [scoreApp, consecCount]
    norm_num
  have hsorted : List.Pairwise (fun x y => (fun (x y : App × ℚ) => decide (y.2 ≤ x.2)) x y = true)
      [(photogravureApp, scoreApp 12 [5, 8]), (gnomeVideoApp, scoreApp 11 [0, 6])] := by
    simp [List.pairwise_cons]
    exact hle
  rw [filteredApps, if_neg (by decide), hm, List.mergeSort_of_sorted hsorted]
  rfl

/-- Witness for C1 at a concrete catalog, query and record. -/
theorem filteredApps_mem_iff_subsequence_witness :
    ("gv".toList ≠ []) ∧
    (photogravureApp ∈ filteredApps demoApps ("gv".toList) ↔
      photogravureApp ∈ demoApps ∧
        ("gv".toList.map toAsciiLowercase).Sublist
          (photogravureApp.name.map toAsciiLowercase)) :=
  ⟨by decide, filteredApps_mem_iff_subsequence demoApps ("gv".toList) photogravureApp (by decide)⟩

/-- Witness for C2 at a concrete matching record. -/
theorem scoredMatches_score_formula_witness :
    ((photogravureApp, scoreApp 12 [5, 8])
        ∈ scoredMatches demoApps ("gv".toList.map toAsciiLowercase)) ∧
    (∃ ps, subseqPositions (photogravureApp.name.map toAsciiLowercase)
          ("gv".toList.map toAsciiLowercase) = some ps ∧
      scoreApp 12 [5, 8] = 1000 / max (utf8Len photogravureApp.name : ℚ) 1
        + (if 2 ≤ "gv".toList.length then
             1000 / max ((ps.getLastD 0 - ps.headD 0 + 1 : Nat) : ℚ) 1 else 0)
        + 200 * (consecCount ps : ℚ)
        + 50 / ((ps.headD 0 : ℚ) + 1)) :=
  ⟨List.Mem.head _,
    scoredMatches_score_formula demoApps ("gv".toList) photogravureApp
      (scoreApp 12 [5, 8]) (List.Mem.head _)⟩

/-- Witness for C4's stability clause at a concrete catalog, query and score. -/
theorem filteredApps_sorted_stable_witness :
    ("gv".toList ≠ []) ∧
    (filteredApps demoApps ("gv".toList)).filter
        (fun a => decide (appScore ("gv".toList) a = 0))
      = (demoApps.filter (isMatch ("gv".toList))).filter
        fun a => decide (appScore ("gv".toList) a = 0) :=
  ⟨by decide, (filteredApps_sorted_stable demoApps ("gv".toList)).2 (by decide) 0⟩

/-- `src/daemon.rs::DaemonCommand`: the four wire commands. -/
inductive DaemonCommand where
  | Show
  | Hide
  | Stop
  | Status
deriving DecidableEq, Repr

/-- `src/daemon.rs::DaemonResponseData` (only the `Status` variant exists). -/
inductive DaemonResponseData where
  | Status (running : Bool) (visible : Bool)
deriving DecidableEq, Repr

/-- `src/daemon.rs::DaemonResponse`. -/
structure DaemonResponse where
  success : Bool
  error : Option (List Char)
  data : Option DaemonResponseData
deriving DecidableEq, Repr

/-- `DaemonResponse::ok()`. -/
def DaemonResponse.ok : DaemonResponse := ⟨true, none, none⟩

/-- `DaemonResponse::ok_with_data(data)`. -/
def DaemonResponse.okWithData (d : DaemonResponseData) : DaemonResponse := ⟨true, none, some d⟩

/-- `DaemonResponse::error(message)`. -/
def DaemonResponse.mkError (message : List Char) : DaemonResponse := ⟨false, some message, none⟩

/-- The daemon-side model state touched by `handle_client_connection`
(`src/daemon.rs`): the catalog, the visibility flag, and the query/selection
fields the `Show` handler resets. -/
structure AppModel where
  all_apps : List App
  ui_visible : Bool
  search_query : List Char
  selected_index : Nat
deriving DecidableEq, Repr

/-- The outcome of one `handle_client_connection` call
(`src/daemon.rs:210-324`): the `(DaemonResponse, bool)` return value, the
daemon model after the call, and whether a UI thread was spawned while
handling this request (the `thread::spawn` on the `Show` path). -/
structure HandleResult where
  response : DaemonResponse
  shouldStop : Bool
  model : AppModel
  uiThreadSpawned : Bool
deriving DecidableEq, Repr

/-- The command dispatch of `handle_client_connection`
(`src/daemon.rs:238-323`). `Show` with the UI already visible is a pure no-op
returning `ok`; `Show` while hidden resets the query/selection, spawns the UI
thread and sets `ui_visible`; `Hide` only logs; `Status` reports
`(running, visible)`; `Stop` sets the stop flag. -/
def handleCommand (cmd : DaemonCommand) (model : AppModel) : HandleResult :=
  match cmd with
  | DaemonCommand.Show =>
    if model.ui_visible then
      ⟨DaemonResponse.ok, false, model, false⟩
    else
      ⟨DaemonResponse.ok, false,
        { model with search_query := [], selected_index := 0, ui_visible := true }, true⟩
  | DaemonCommand.Hide => ⟨DaemonResponse.ok, false, model, false⟩
  | DaemonCommand.Status =>
    ⟨DaemonResponse.okWithData (DaemonResponseData.Status true model.ui_visible),
      false, model, false⟩
  | DaemonCommand.Stop =>
    ⟨DaemonResponse.okWithData (DaemonResponseData.Status false false), true, model, false⟩

/-- `handle_client_connection` (`src/daemon.rs:210-324`) above the dispatch:
the argument stands for the outcome of `serde_json::from_slice` on the request
bytes; a decode failure yields an `Error` response with the
`"Invalid command format: ..."` message and does not stop the daemon. -/
def handleClientConnection (request : Except (List Char) DaemonCommand)
    (model : AppModel) : HandleResult :=
  match request with
  | Except.error e =>
    ⟨DaemonResponse.mkError ("Invalid command format: ".toList ++ e), false, model, false⟩
  | Except.ok cmd => handleCommand cmd model

/-- The accept loop of `run_daemon` (`src/daemon.rs:167-204`) over a sequence
of incoming connections (each given as its decoded-request outcome): handle
each in turn, reply, and break out of the loop exactly when the handler sets
the stop flag. The UI-exit notification channel (visibility reconciliation)
is orthogonal to request handling and not consumed here. -/
def runDaemonRequests : AppModel → List (Except (List Char) DaemonCommand) →
    List DaemonResponse × AppModel
  | m, [] => ([], m)
  | m, req :: rest =>
    let r := handleClientConnection req m
    if r.shouldStop then ([r.response], r.model)
    else
      let p := runDaemonRequests r.model rest
      (r.response :: p.1, p.2)

/-- C6: a `Show` while the UI is already visible returns success and changes
nothing (no spawn, no state change, no stop), and a second `Show` immediately
after behaves identically, so two `Show`s in a row both succeed with no
additional UI thread spawned. -/
theorem show_idempotent_when_visible (m : AppModel) (h : m.ui_visible = true) :
    handleClientConnection (Except.ok DaemonCommand.Show) m
      = ⟨DaemonResponse.ok, false, m, false⟩ ∧
    handleClientConnection (Except.ok DaemonCommand.Show)
        (handleClientConnection (Except.ok DaemonCommand.Show) m).model
      = ⟨DaemonResponse.ok, false, m, false⟩ := by
  have h1 : handleClientConnection (Except.ok DaemonCommand.Show) m
      = ⟨DaemonResponse.ok, false, m, false⟩ := by
    rw [handleClientConnection, handleCommand, if_pos h]
  exact ⟨h1, by rw [h1, handleClientConnection, handleCommand, if_pos h]⟩

/-- Witness for C6 at a concrete visible daemon state. -/
theorem show_idempotent_when_visible_witness :
    (AppModel.mk [] true [] 0).ui_visible = true ∧
    (handleClientConnection (Except.ok DaemonCommand.Show) (AppModel.mk [] true [] 0)
        = ⟨DaemonResponse.ok, false, AppModel.mk [] true [] 0, false⟩ ∧
      handleClientConnection (Except.ok DaemonCommand.Show)
          (handleClientConnection (Except.ok DaemonCommand.Show)
            (AppModel.mk [] true [] 0)).model
        = ⟨DaemonResponse.ok, false, AppModel.mk [] true [] 0, false⟩) :=
  ⟨rfl, show_idempotent_when_visible (AppModel.mk [] true [] 0) rfl⟩

/-- C8: a request whose bytes do not decode to a command produces an `Error`
response carrying a message, leaves the daemon state unchanged, does not set
the stop flag, and the accept loop goes on to handle the remaining
connections exactly as it would have. -/
theorem invalid_request_error_continues (m : AppModel) (e : List Char)
    (rest : List (Except (List Char) DaemonCommand)) :
    (handleClientConnection (Except.error e) m).response.success = false ∧
    (handleClientConnection (Except.error e) m).response.error
      = some ("Invalid command format: ".toList ++ e) ∧
    (handleClientConnection (Except.error e) m).shouldStop = false ∧
    (handleClientConnection (Except.error e) m).model = m ∧
    (handleClientConnection (Except.error e) m).uiThreadSpawned = false ∧
    runDaemonRequests m (Except.error e :: rest)
      = ((handleClientConnection (Except.error e) m).response
          :: (runDaemonRequests m rest).1, (runDaemonRequests m rest).2) :=
  ⟨rfl, rfl, rfl, rfl, rfl, rfl⟩

/-- Rust `str::trim` (ASCII/Unicode whitespace from both ends; the PID file
only ever holds digits and line terminators). -/
def trimString (s : List Char) : List Char :=
  ((s.dropWhile Char.isWhitespace).reverse.dropWhile Char.isWhitespace).reverse

/-- Rust `str::parse::<u32>`: optional leading `+`, then one or more ASCII
digits, rejecting anything else and values out of `u32` range. -/
def parse_u32 (s : List Char) : Option Nat :=
  let digits := match s with
    | '+' :: rest => rest
    | _ => s
  if digits = [] then none
  else if digits.all Char.isDigit then
    let v := digits.foldl (fun acc c => acc * 10 + (c.toNat - 48)) 0
    if v < 2 ^ 32 then some v else none
  else none

/-- `src/daemon.rs::is_running` (lines 92-107): read the PID file (`none`
models a read failure or missing file), parse the trimmed contents as a `u32`,
and ask the process-liveness oracle (`libc::kill(pid, 0) == 0`); any failure
on the way yields `false`. -/
def is_running (pidFileContent : Option (List Char)) (processAlive : Nat → Bool) : Bool :=
  match pidFileContent with
  | none => false
  | some s =>
    match parse_u32 (trimString s) with
    | none => false
    | some pid => processAlive pid

/-- Outcome of `handle_start` (`src/main.rs:53-78`) for a non-daemon
invocation: either report "already running" or spawn the daemon process. -/
inductive StartOutcome where
  | runningAlready
  | daemonSpawned
deriving DecidableEq, Repr

/-- The `is_running` gate of `handle_start` (`src/main.rs:60-78`). -/
def handle_start (running : Bool) : StartOutcome :=
  if running then StartOutcome.runningAlready else StartOutcome.daemonSpawned

/-- C9: a PID file whose contents parse to a process id that the liveness
oracle reports dead makes `is_running` return false, so a subsequent `Start`
proceeds to spawn the daemon. -/
theorem is_running_stale_pid (content : List Char) (alive : Nat → Bool) (pid : Nat)
    (hparse : parse_u32 (trimString content) = some pid) (hdead : alive pid = false) :
    is_running (some content) alive = false ∧
    handle_start (is_running (some content) alive) = StartOutcome.daemonSpawned := by
  have h1 : is_running (some content) alive = false := by
    rw [is_running, hparse]
    exact hdead
  exact ⟨h1, by rw [h1]; rfl⟩

/-- Witness for C9 on a concrete stale PID file. -/
theorem is_running_stale_pid_witness :
    parse_u32 (trimString ("12345\n".toList)) = some 12345 ∧
    ((fun _ => false) 12345 = false) ∧
    (is_running (some ("12345\n".toList)) (fun _ => false) = false ∧
      handle_start (is_running (some ("12345\n".toList)) (fun _ => false))
        = StartOutcome.daemonSpawned) :=
  ⟨by decide, rfl, is_running_stale_pid ("12345\n".toList) (fun _ => false) 12345 (by decide) rfl⟩

/-- The scan-phase loop of `discover_apps` (`src/model.rs:50-57`): iterate the
scanner results in order, keep a record only when its name is not yet in the
seen set (first-seen-wins), inserting every kept name; returns the kept
records and the final seen set. -/
def dedupScan : List App → List (List Char) → List App × List (List Char)
  | [], seen => ([], seen)
  | app :: rest, seen =>
    if app.name ∈ seen then dedupScan rest seen
    else
      let p := dedupScan rest (app.name :: seen)
      (app :: p.1, p.2)

/-- Rust `Iterator::position` over a vector of records (`src/model.rs:62`). -/
def position (p : App → Bool) : List App → Option Nat
  | [] => none
  | x :: xs => if p x then some 0 else (position p xs).map (· + 1)

/-- The desktop-entry merge loop of `discover_apps` (`src/model.rs:59-68`): a
desktop record overwrites the record with the same name in place when one
exists (`apps[pos] = app`), and is appended otherwise when its name is newly
inserted into the seen set. -/
def mergeDesktop : List App → List (List Char) → List App → List App
  | apps, _, [] => apps
  | apps, seen, d :: rest =>
    match position (fun a => decide (a.name = d.name)) apps with
    | some pos => mergeDesktop (apps.set pos d) seen rest
    | none =>
      if d.name ∈ seen then mergeDesktop apps seen rest
      else mergeDesktop (apps ++ [d]) (d.name :: seen) rest

/-- `icon_path_exists` (`src/model.rs:97-102`), the filesystem given as an
oracle. -/
def icon_path_exists (pathExists : List Char → Bool) : Option (List Char) → Bool
  | some p => pathExists p
  | none => false

/-- The per-record body of `resolve_app_icons` (`src/model.rs:78-94`):
replace the icon by the discovered one when the record has none or its icon
path does not exist; `discoverIcon` stands for `discover_comprehensive_icon`
(on Linux a function of the record's name). -/
def resolveIconRecord (pathExists : List Char → Bool)
    (discoverIcon : List Char → Option (List Char)) (app : App) : App :=
  if app.icon = none ∨ icon_path_exists pathExists app.icon = false then
    { app with icon := discoverIcon app.name }
  else app

/-- `resolve_app_icons` (`src/model.rs:78-94`). -/
def resolve_app_icons (pathExists : List Char → Bool)
    (discoverIcon : List Char → Option (List Char)) (apps : List App) : List App :=
  apps.map (resolveIconRecord pathExists discoverIcon)

/-- Rust `str::cmp` on names as a Bool `≤` (lexicographic; UTF-8 byte order
coincides with codepoint order). -/
def strLe : List Char → List Char → Bool
  | [], _ => true
  | _ :: _, [] => false
  | a :: as, b :: bs => if a < b then true else if b < a then false else strLe as bs

/-- `discover_apps` (`src/model.rs:42-75`) as a function of the raw scanner
outputs: `scanned` is the concatenation of `scan_directory` over the existing
well-known paths, `desktop` the output of `discover_desktop_entries` (the
Linux structured desktop-entry source). First-seen-wins dedup on the name,
then the desktop merge, then icon resolution, then the stable
`sort_by(|a, b| a.name.cmp(&b.name))`. -/
def discover_apps (scanned desktop : List App) (pathExists : List Char → Bool)
    (discoverIcon : List Char → Option (List Char)) : List App :=
  let p := dedupScan scanned []
  let merged := mergeDesktop p.1 p.2 desktop
  let resolved := resolve_app_icons pathExists discoverIcon merged
  resolved.mergeSort fun a b => strLe a.name b.name

theorem strLe_total : ∀ s t : List Char, (strLe s t || strLe t s) = true
  | [], t => by simp [strLe]
  | a :: as, [] => by simp [strLe]
  | a :: as, b :: bs => by
    simp only [strLe]
    rcases lt_trichotomy a b with h | h | h
    · rw [if_pos h]
      simp
    · subst h
      simp only [if_neg (lt_irrefl a)]
      exact strLe_total as bs
    · rw [if_neg (lt_asymm h), if_pos h, if_pos h]
      simp

theorem strLe_trans : ∀ r s t : List Char,
    strLe r s = true → strLe s t = true → strLe r t = true
  | [], s, t => fun _ _ => rfl
  | a :: as, [], t => by simp [strLe]
  | a :: as, b :: bs, [] => by
    intro _ h2
    simp [strLe] at h2
  | a :: as, b :: bs, c :: cs => by
    intro h1 h2
    simp only [strLe] at h1 h2 ⊢
    rcases lt_trichotomy a b with hab | hab | hab
    · rcases lt_trichotomy b c with hbc | hbc | hbc
      · rw [if_pos (lt_trans hab hbc)]
      · subst hbc
        rw [if_pos hab]
      · rw [if_neg (lt_asymm hbc), if_pos hbc] at h2
        exact absurd h2 (by simp)
    · subst hab
      rw [if_neg (lt_irrefl a), if_neg (lt_irrefl a)] at h1
      rcases lt_trichotomy a c with hac | hac | hac
      · rw [if_pos hac]
      · subst hac
        rw [if_neg (lt_irrefl a), if_neg (lt_irrefl a)] at h2 ⊢
        exact strLe_trans as bs cs h1 h2
      · rw [if_neg (lt_asymm hac), if_pos hac] at h2
        exact absurd h2 (by simp)
    · rw [if_neg (lt_asymm hab), if_pos hab] at h1
      exact absurd h1 (by simp)

theorem position_eq_none {p : App → Bool} :
    ∀ {apps : List App}, position p apps = none ↔ ∀ a ∈ apps, p a = false
  | [] => by simp [position]
  | x :: xs => by
    simp only [position]
    by_cases hx : p x
    · simp [hx]
    · rw [if_neg hx]
      simp only [List.mem_cons]
      rw [Option.map_eq_none', position_eq_none]
      constructor
      · intro h a ha
        rcases ha with rfl | ha
        · exact Bool.of_not_eq_true hx
        · exact h a ha
      · intro h a ha
        exact h a (Or.inr ha)

theorem position_eq_some_spec {p : App → Bool} :
    ∀ {apps : List App} {pos : Nat}, position p apps = some pos →
      ∃ h : pos < apps.length, p (apps.get ⟨pos, h⟩) = true
  | [], pos => by simp [position]
  | x :: xs, pos => by
    simp only [position]
    by_cases hx : p x
    · rw [if_pos hx]
      intro h
      obtain rfl : pos = 0 := by simpa using h.symm
      exact ⟨by simp, hx⟩
    · rw [if_neg hx]
      intro h
      obtain ⟨pos0, hpos0, rfl⟩ := Option.map_eq_some'.mp h
      obtain ⟨hlt, hp⟩ := position_eq_some_spec hpos0
      exact ⟨by simpa using Nat.succ_lt_succ hlt, hp⟩

theorem map_name_set : ∀ (apps : List App) (pos : Nat) (d : App) (h : pos < apps.length),
    (apps.get ⟨pos, h⟩).name = d.name →
    (apps.set pos d).map (fun a => a.name) = apps.map fun a => a.name
  | [], pos, d, h => by simp at h
  | x :: xs, 0, d, h => by
    intro hname
    simp only [List.set, List.map_cons]
    rw [← hname]
    rfl
  | x :: xs, pos + 1, d, h => by
    intro hname
    simp only [List.set, List.map_cons]
    rw [map_name_set xs pos d (by simpa using Nat.lt_of_succ_lt_succ h) hname]

theorem dedupScan_fst_find : ∀ (scanned : List App) (seen : List (List Char)) (a : App),
    a ∈ (dedupScan scanned seen).1 →
      a.name ∉ seen ∧ List.find? (fun s0 => decide (s0.name = a.name)) scanned = some a
  | [], seen, a => by simp [dedupScan]
  | app :: rest, seen, a => by
    intro ha
    rw [dedupScan] at ha
    by_cases hmem : app.name ∈ seen
    · rw [if_pos hmem] at ha
      obtain ⟨hnot, hfind⟩ := dedupScan_fst_find rest seen a ha
      refine ⟨hnot, ?_⟩
      rw [List.find?_cons_of_neg, hfind]
      simp only [decide_eq_true_eq]
      intro heq
      exact hnot (heq ▸ hmem)
    · rw [if_neg hmem] at ha
      rcases List.mem_cons.mp ha with rfl | ha
      · exact ⟨hmem, by rw [List.find?_cons_of_pos _ (by simp)]⟩
      · obtain ⟨hnot, hfind⟩ := dedupScan_fst_find rest (app.name :: seen) a ha
        have hne : a.name ≠ app.name := fun h => hnot (by simp [h])
        refine ⟨fun h => hnot (by simp [h]), ?_⟩
        rw [List.find?_cons_of_neg, hfind]
        simp only [decide_eq_true_eq]
        exact fun h => hne h.symm

theorem dedupScan_fst_names : ∀ (scanned : List App) (seen : List (List Char)) (n : List Char),
    n ∈ (dedupScan scanned seen).1.map (fun a => a.name) ↔
      n ∈ scanned.map (fun a => a.name) ∧ n ∉ seen
  | [], seen, n => by simp [dedupScan]
  | app :: rest, seen, n => by
    rw [dedupScan]
    by_cases hmem : app.name ∈ seen
    · rw [if_pos hmem, dedupScan_fst_names rest seen n]
      simp only [List.map_cons, List.mem_cons]
      constructor
      · rintro ⟨h1, h2⟩
        exact ⟨Or.inr h1, h2⟩
      · rintro ⟨h1 | h1, h2⟩
        · exact absurd (h1 ▸ hmem) h2
        · exact ⟨h1, h2⟩
    · rw [if_neg hmem]
      simp only [List.map_cons, List.mem_cons]
      rw [dedupScan_fst_names rest (app.name :: seen) n]
      simp only [List.mem_cons]
      constructor
      · rintro (rfl | ⟨h1, h2⟩)
        · exact ⟨Or.inl rfl, hmem⟩
        · exact ⟨Or.inr h1, fun hn => h2 (Or.inr hn)⟩
      · rintro ⟨rfl | h1, h2⟩
        · exact Or.inl rfl
        · by_cases hn : n = app.name
          · exact Or.inl hn
          · exact Or.inr ⟨h1, fun hc => (by rcases hc with h | h; exact hn h; exact h2 h : False)⟩

theorem dedupScan_fst_nodup : ∀ (scanned : List App) (seen : List (List Char)),
    ((dedupScan scanned seen).1.map (fun a => a.name)).Nodup
  | [], seen => by simp [dedupScan]
  | app :: rest, seen => by
    rw [dedupScan]
    by_cases hmem : app.name ∈ seen
    · rw [if_pos hmem]
      exact dedupScan_fst_nodup rest seen
    · rw [if_neg hmem]
      simp only [List.map_cons, List.nodup_cons]
      refine ⟨fun hc => ?_, dedupScan_fst_nodup rest (app.name :: seen)⟩
      have := (dedupScan_fst_names rest (app.name :: seen) app.name).mp hc
      exact this.2 (by simp)

theorem dedupScan_snd_mem : ∀ (scanned : List App) (seen : List (List Char)) (n : List Char),
    n ∈ (dedupScan scanned seen).2 ↔ n ∈ scanned.map (fun a => a.name) ∨ n ∈ seen
  | [], seen, n => by simp [dedupScan]
  | app :: rest, seen, n => by
    rw [dedupScan]
    by_cases hmem : app.name ∈ seen
    · rw [if_pos hmem, dedupScan_snd_mem rest seen n]
      simp only [List.map_cons, List.mem_cons]
      constructor
      · rintro (h | h)
        · exact Or.inl (Or.inr h)
        · exact Or.inr h
      · rintro (⟨rfl | h⟩ | h)
        · exact Or.inr hmem
        · exact Or.inl h
        · exact Or.inr h
    · rw [if_neg hmem]
      show n ∈ (dedupScan rest (app.name :: seen)).2 ↔ _
      rw [dedupScan_snd_mem rest (app.name :: seen) n]
      simp only [List.map_cons, List.mem_cons]
      constructor
      · rintro (h | rfl | h)
        · exact Or.inl (Or.inr h)
        · exact Or.inl (Or.inl rfl)
        · exact Or.inr h
      · rintro (⟨rfl | h⟩ | h)
        · exact Or.inr (Or.inl rfl)
        · exact Or.inl h
        · exact Or.inr (Or.inr h)

theorem mem_set_of_name_unique :
    ∀ (apps : List App) (pos : Nat) (d : App),
      position (fun a => decide (a.name = d.name)) apps = some pos →
      (apps.map (fun a => a.name)).Nodup →
      ∀ a : App, a ∈ apps.set pos d ↔ a = d ∨ (a ∈ apps ∧ a.name ≠ d.name)
  | [], pos, d => by simp [position]
  | x :: xs, pos, d => by
    intro hpos hnodup a
    simp only [List.map_cons, List.nodup_cons] at hnodup
    rw [position] at hpos
    by_cases hx : x.name = d.name
    · rw [if_pos (by simpa using hx)] at hpos
      obtain rfl : pos = 0 := by simpa using hpos.symm
      simp only [List.set, List.mem_cons]
      constructor
      · rintro (rfl | ha)
        · exact Or.inl rfl
        · refine Or.inr ⟨Or.inr ha, fun hc => ?_⟩
          have hxa : x.name = a.name := hx.trans hc.symm
          exact hnodup.1 (hxa ▸ List.mem_map_of_mem _ ha)
      · rintro (rfl | ⟨rfl | ha, hne⟩)
        · exact Or.inl rfl
        · exact absurd hx hne
        · exact Or.inr ha
    · rw [if_neg (by simpa using hx)] at hpos
      obtain ⟨pos0, hpos0, rfl⟩ := Option.map_eq_some'.mp hpos
      simp only [List.set, List.mem_cons]
      rw [mem_set_of_name_unique xs pos0 d hpos0 hnodup.2 a]
      constructor
      · rintro (rfl | rfl | ⟨ha, hne⟩)
        · exact Or.inr ⟨Or.inl rfl, hx⟩
        · exact Or.inl rfl
        · exact Or.inr ⟨Or.inr ha, hne⟩
      · rintro (rfl | ⟨rfl | ha, hne⟩)
        · exact Or.inr (Or.inl rfl)
        · exact Or.inl rfl
        · exact Or.inr (Or.inr ⟨ha, hne⟩)

theorem mergeDesktop_spec :
    ∀ (desktop apps : List App) (seen : List (List Char)),
      (apps.map (fun a => a.name)).Nodup →
      (∀ n, n ∈ seen ↔ n ∈ apps.map (fun a => a.name)) →
      ((mergeDesktop apps seen desktop).map (fun a => a.name)).Nodup ∧
      (∀ n, n ∈ (mergeDesktop apps seen desktop).map (fun a => a.name) ↔
          n ∈ apps.map (fun a => a.name) ∨ n ∈ desktop.map (fun a => a.name)) ∧
      (∀ a ∈ mergeDesktop apps seen desktop,
        match List.find? (fun d0 => decide (d0.name = a.name)) desktop.reverse with
        | some d0 => a = d0
        | none => a ∈ apps)
  | [], apps, seen => by
    intro hnodup hseen
    refine ⟨hnodup, fun n => by simp [mergeDesktop], fun a ha => ?_⟩
    simp only [List.reverse_nil, List.find?_nil]
    exact ha
  | d :: rest, apps, seen => by
    intro hnodup hseen
    rw [mergeDesktop]
    cases hpos : position (fun a => decide (a.name = d.name)) apps with
    | some pos =>
      obtain ⟨hlt, hget⟩ := position_eq_some_spec hpos
      have hgname : (apps.get ⟨pos, hlt⟩).name = d.name := of_decide_eq_true hget
      have hnames : (apps.set pos d).map (fun a => a.name) = apps.map fun a => a.name :=
        map_name_set apps pos d hlt hgname
      have hdmem : d.name ∈ apps.map fun a => a.name := by
        rw [← hgname]
        exact List.mem_map_of_mem _ (apps.get_mem pos hlt)
      obtain ⟨ih1, ih2, ih3⟩ := mergeDesktop_spec rest (apps.set pos d) seen
        (by rw [hnames]; exact hnodup) (fun n => by rw [hnames]; exact hseen n)
      refine ⟨ih1, fun n => ?_, fun a ha => ?_⟩
      · rw [ih2 n, hnames]
        simp only [List.map_cons, List.mem_cons]
        constructor
        · rintro (h | h)
          · exact Or.inl h
          · exact Or.inr (Or.inr h)
        · rintro (h | rfl | h)
          · exact Or.inl h
          · exact Or.inl hdmem
          · exact Or.inr h
      · have := ih3 a ha
        rw [List.reverse_cons, List.find?_append]
        cases hf : List.find? (fun d0 => decide (d0.name = a.name)) rest.reverse with
        | some d0 =>
          rw [hf] at this
          simp only [Option.or_some]
          exact this
        | none =>
          rw [hf] at this
          simp only [Option.none_or]
          have hmem := (mem_set_of_name_unique apps pos d hpos hnodup a).mp this
          rcases hmem with rfl | ⟨hain, hane⟩
          · rw [List.find?_cons_of_pos _ (by simp)]
          · rw [List.find?_cons_of_neg _ (by simpa using fun h => hane h.symm),
              List.find?_nil]
            exact hain
    | none =>
      by_cases hdseen : d.name ∈ seen
      · exfalso
        obtain ⟨a0, ha0, ha0n⟩ := List.mem_map.mp ((hseen d.name).mp hdseen)
        have := position_eq_none.mp hpos a0 ha0
        rw [ha0n] at this
        simp at this
      · rw [if_neg hdseen]
        have hdnew : d.name ∉ apps.map fun a => a.name := fun hc => hdseen ((hseen d.name).mpr hc)
        have hnodup2 : ((apps ++ [d]).map (fun a => a.name)).Nodup := by
          rw [List.map_append, List.nodup_append]
          refine ⟨hnodup, by simp, ?_⟩
          intro n hn hc
          simp only [List.map_cons, List.map_nil, List.mem_singleton] at hc
          exact hdnew (hc ▸ hn)
        have hseen2 : ∀ n, n ∈ d.name :: seen ↔ n ∈ (apps ++ [d]).map fun a => a.name := by
          intro n
          rw [List.map_append, List.mem_append, List.mem_cons]
          constructor
          · rintro (rfl | h)
            · exact Or.inr (by simp)
            · exact Or.inl ((hseen n).mp h)
          · rintro (h | h)
            · exact Or.inr ((hseen n).mpr h)
            · exact Or.inl (by simpa using h)
        obtain ⟨ih1, ih2, ih3⟩ := mergeDesktop_spec rest (apps ++ [d]) (d.name :: seen)
          hnodup2 hseen2
        refine ⟨ih1, fun n => ?_, fun a ha => ?_⟩
        · rw [ih2 n, List.map_append]
          simp only [List.map_cons, List.mem_cons, List.mem_append]
          constructor
          · rintro ((h | h) | h)
            · exact Or.inl h
            · exact Or.inr (Or.inl (by simpa using h))
            · exact Or.inr (Or.inr h)
          · rintro (h | rfl | h)
            · exact Or.inl (Or.inl h)
            · exact Or.inl (Or.inr (by simp))
            · exact Or.inr h
        · have := ih3 a ha
          rw [List.reverse_cons, List.find?_append]
          cases hf : List.find? (fun d0 => decide (d0.name = a.name)) rest.reverse with
          | some d0 =>
            rw [hf] at this
            simp only [Option.or_some]
            exact this
          | none =>
            rw [hf] at this
            simp only [Option.none_or]
            rcases List.mem_append.mp this with hain | had
            · rw [List.find?_cons_of_neg _ ?_, List.find?_nil]
              · exact hain
              · simp only [decide_eq_true_eq]
                intro hdn
                exact hdnew (hdn ▸ List.mem_map_of_mem _ hain)
            · obtain rfl : a = d := by simpa using had
              rw [List.find?_cons_of_pos _ (by simp)]

theorem resolveIconRecord_name (pathExists : List Char → Bool)
    (discoverIcon : List Char → Option (List Char)) (app : App) :
    (resolveIconRecord pathExists discoverIcon app).name = app.name := by
  unfold resolveIconRecord
  split <;> rfl

/-- C7: for any two scanner result sequences, the built catalog holds exactly
one record per name (the dedup key), merging is first-seen-wins except that a
desktop-entry record overwrites an earlier record with the same name, and the
result is sorted by name: the names are Nodup and exhaust both sources, the
catalog is sorted under the name order, and each record originates from the
desktop source when its name occurs there (latest desktop occurrence) and
from the first scanner occurrence otherwise, icon resolution applied. -/
theorem discover_apps_dedup_sorted (scanned desktop : List App)
    (pathExists : List Char → Bool) (discoverIcon : List Char → Option (List Char)) :
    ((discover_apps scanned desktop pathExists discoverIcon).map (fun a => a.name)).Nodup ∧
    (∀ n, n ∈ (discover_apps scanned desktop pathExists discoverIcon).map (fun a => a.name) ↔
        n ∈ scanned.map (fun a => a.name) ∨ n ∈ desktop.map (fun a => a.name)) ∧
    (discover_apps scanned desktop pathExists discoverIcon).Pairwise
      (fun a b => strLe a.name b.name = true) ∧
    (∀ a ∈ discover_apps scanned desktop pathExists discoverIcon,
      match List.find? (fun d0 => decide (d0.name = a.name)) desktop.reverse with
      | some d0 => a = resolveIconRecord pathExists discoverIcon d0
      | none => ∃ s, List.find? (fun s0 => decide (s0.name = a.name)) scanned = some s ∧
          a = resolveIconRecord pathExists discoverIcon s) := by
  have h1nodup := dedupScan_fst_nodup scanned []
  have h1names : ∀ n, n ∈ (dedupScan scanned []).1.map (fun a => a.name) ↔
      n ∈ scanned.map (fun a => a.name) := by
    intro n
    rw [dedupScan_fst_names]
    simp
  have hseeninv : ∀ n, n ∈ (dedupScan scanned []).2 ↔
      n ∈ (dedupScan scanned []).1.map (fun a => a.name) := by
    intro n
    rw [dedupScan_snd_mem, h1names n]
    simp
  obtain ⟨m1, m2, m3⟩ := mergeDesktop_spec desktop (dedupScan scanned []).1
    (dedupScan scanned []).2 h1nodup hseeninv
  have hresnames : (resolve_app_icons pathExists discoverIcon
        (mergeDesktop (dedupScan scanned []).1 (dedupScan scanned []).2 desktop)).map
          (fun a => a.name)
      = (mergeDesktop (dedupScan scanned []).1 (dedupScan scanned []).2 desktop).map
          fun a => a.name := by
    rw [resolve_app_icons, List.map_map]
    exact List.map_congr_left fun a _ => resolveIconRecord_name pathExists discoverIcon a
  have hunfold : discover_apps scanned desktop pathExists discoverIcon
      = (resolve_app_icons pathExists discoverIcon
          (mergeDesktop (dedupScan scanned []).1 (dedupScan scanned []).2
            desktop)).mergeSort fun a b => strLe a.name b.name := rfl
  have hperm : (discover_apps scanned desktop pathExists discoverIcon).Perm
      (resolve_app_icons pathExists discoverIcon
        (mergeDesktop (dedupScan scanned []).1 (dedupScan scanned []).2 desktop)) := by
    rw [hunfold]
    exact List.mergeSort_perm _ _
  refine ⟨?_, ?_, ?_, ?_⟩
  · rw [(hperm.map fun a => a.name).nodup_iff, hresnames]
    exact m1
  · intro n
    rw [(hperm.map fun a => a.name).mem_iff, hresnames, m2 n, h1names n]
  · rw [hunfold]
    exact List.sorted_mergeSort (fun a b c => strLe_trans a.name b.name c.name)
      (fun a b => strLe_total a.name b.name) _
  · intro a ha
    rw [hperm.mem_iff, resolve_app_icons, List.mem_map] at ha
    obtain ⟨b, hbmem, hba⟩ := ha
    have hname : a.name = b.name := by
      rw [← hba]
      exact resolveIconRecord_name pathExists discoverIcon b
    have hm3 := m3 b hbmem
    simp only [hname]
    cases hf : List.find? (fun d0 => decide (d0.name = b.name)) desktop.reverse with
    | some d0 =>
      rw [hf] at hm3
      show a = resolveIconRecord pathExists discoverIcon d0
      rw [← hba, hm3]
    | none =>
      rw [hf] at hm3
      show ∃ s, List.find? (fun s0 => decide (s0.name = b.name)) scanned = some s ∧
        a = resolveIconRecord pathExists discoverIcon s
      obtain ⟨-, hfind⟩ := dedupScan_fst_find scanned [] b hm3
      exact ⟨b, hfind, hba.symm⟩

/-- Scanner fixtures for the C7 witness: two filesystem-scan records and one
desktop-entry record sharing the name "beta" with the first. -/
def scanBeta : App := { name := "beta".toList, path := "/scan/beta".toList }

def scanAlpha : App := { name := "alpha".toList, path := "/scan/alpha".toList }

def deskBeta : App := { name := "beta".toList, path := "/desktop/beta".toList }

/-- Witness for C7: on the concrete two-scanner run, the "beta" record of the
catalog is the desktop-entry one. -/
theorem discover_apps_dedup_sorted_witness :
    (deskBeta ∈ discover_apps [scanBeta, scanAlpha] [deskBeta]
        (fun _ => false) (fun _ => none)) ∧
    (match List.find? (fun d0 => decide (d0.name = deskBeta.name))
        ([deskBeta] : List App).reverse with
      | some d0 => deskBeta = resolveIconRecord (fun _ => false) (fun _ => none) d0
      | none => ∃ s, List.find? (fun s0 => decide (s0.name = deskBeta.name))
            [scanBeta, scanAlpha] = some s ∧
          deskBeta = resolveIconRecord (fun _ => false) (fun _ => none) s) := by
  have hmem : deskBeta ∈ discover_apps [scanBeta, scanAlpha] [deskBeta]
      (fun _ => false) (fun _ => none) := by
    rw [discover_apps, List.mem_mergeSort]
    decide
  exact ⟨hmem, (discover_apps_dedup_sorted [scanBeta, scanAlpha] [deskBeta]
    (fun _ => false) (fun _ => none)).2.2.2 deskBeta hmem⟩
